import Mathlib

/-!
Verification of the nu_plugin_dbus design: the signature model, the value
conversion engine, the bus-name pattern matcher, the introspection resolver,
and the orchestration glue of src/main.rs, embedded shallowly in Lean.

Only src/main.rs is available; the core modules (dbus_type, convert, pattern,
introspection, client) are declared there but their sources are absent, so
those components are modelled from the specification text and marked as such
in their doc comments.
-/

/-- Modelled from the spec: the recursive Type Signature data model of the
missing dbus_type module (section 3).  Dict keys are restricted to basic
types by the parser, not by the type itself. -/
inductive DbusType where
  | byte
  | bool
  | int16
  | uint16
  | int32
  | uint32
  | int64
  | uint64
  | double
  | string
  | objectPath
  | signature
  | array (elem : DbusType)
  | struct (members : List DbusType)
  | dict (key : DbusType) (value : DbusType)
  | variant
  | unixFd

mutual

def beqDbusType : DbusType → DbusType → Bool
  | .byte, .byte => true
  | .bool, .bool => true
  | .int16, .int16 => true
  | .uint16, .uint16 => true
  | .int32, .int32 => true
  | .uint32, .uint32 => true
  | .int64, .int64 => true
  | .uint64, .uint64 => true
  | .double, .double => true
  | .string, .string => true
  | .objectPath, .objectPath => true
  | .signature, .signature => true
  | .array a, .array b => beqDbusType a b
  | .struct a, .struct b => beqDbusTypeList a b
  | .dict k v, .dict k2 v2 => beqDbusType k k2 && beqDbusType v v2
  | .variant, .variant => true
  | .unixFd, .unixFd => true
  | _, _ => false

def beqDbusTypeList : List DbusType → List DbusType → Bool
  | [], [] => true
  | a :: as2, b :: bs => beqDbusType a b && beqDbusTypeList as2 bs
  | _, _ => false

end

/-- Basic (non-container) types, the only legal dict keys. -/
def DbusType.isBasic : DbusType → Bool
  | .array _ => false
  | .struct _ => false
  | .dict _ _ => false
  | .variant => false
  | _ => true

mutual

/-- Modelled from the spec: rendering one signature back to its compact
type-code text, the inverse of parsing (section 4.1). -/
def typeText : DbusType → List Char
  | .byte => ['y']
  | .bool => ['b']
  | .int16 => ['n']
  | .uint16 => ['q']
  | .int32 => ['i']
  | .uint32 => ['u']
  | .int64 => ['x']
  | .uint64 => ['t']
  | .double => ['d']
  | .string => ['s']
  | .objectPath => ['o']
  | .signature => ['g']
  | .array t => 'a' :: typeText t
  | .struct ms => '(' :: typeTextList ms ++ [')']
  | .dict k v => 'a' :: '\x7b' :: (typeText k ++ typeText v ++ ['\x7d'])
  | .variant => ['v']
  | .unixFd => ['h']

def typeTextList : List DbusType → List Char
  | [] => []
  | t :: ts => typeText t ++ typeTextList ts

end

/-- Text of a single signature. -/
def to_text (t : DbusType) : String := String.mk (typeText t)

/-- Text of a whole signature sequence: the concatenation of its members,
exactly the signature-string convention of the wire format. -/
def sigsToText (ts : List DbusType) : String := String.mk (typeTextList ts)

/-- Signature parse failure. -/
inductive SigError where
  | malformedSignature
  deriving DecidableEq

/-- Single type codes of the compact grammar (section 6). -/
def tcodeOf? (c : Char) : Option DbusType :=
  if c = 'y' then some .byte
  else if c = 'b' then some .bool
  else if c = 'n' then some .int16
  else if c = 'q' then some .uint16
  else if c = 'i' then some .int32
  else if c = 'u' then some .uint32
  else if c = 'x' then some .int64
  else if c = 't' then some .uint64
  else if c = 'd' then some .double
  else if c = 's' then some .string
  else if c = 'o' then some .objectPath
  else if c = 'g' then some .signature
  else if c = 'v' then some .variant
  else if c = 'h' then some .unixFd
  else none

mutual

/-- Modelled from the spec: recursive-descent parse of one complete single
type, returning it with the unconsumed remainder (section 4.1).  The first
argument is recursion fuel; it is only ever exhausted on inputs that are
malformed anyway, and the wrapper supplies more fuel than any input can use. -/
def parseSingleF : Nat → List Char → Except SigError (DbusType × List Char)
  | 0, _ => .error .malformedSignature
  | _ + 1, [] => .error .malformedSignature
  | f + 1, c :: cs =>
    match tcodeOf? c with
    | some t => .ok (t, cs)
    | none =>
      if c = 'a' then
        match cs with
        | [] => .error .malformedSignature
        | c2 :: cs2 =>
          if c2 = '\x7b' then
            match parseSingleF f cs2 with
            | .error e => .error e
            | .ok (k, r1) =>
              if k.isBasic then
                match parseSingleF f r1 with
                | .error e => .error e
                | .ok (v, r2) =>
                  match r2 with
                  | [] => .error .malformedSignature
                  | c3 :: r3 =>
                    if c3 = '\x7d' then .ok (.dict k v, r3)
                    else .error .malformedSignature
              else .error .malformedSignature
          else
            match parseSingleF f (c2 :: cs2) with
            | .error e => .error e
            | .ok (t, r) => .ok (.array t, r)
      else if c = '(' then
        match parseStructF f cs with
        | .error e => .error e
        | .ok (ms, r) =>
          if ms.isEmpty then .error .malformedSignature else .ok (.struct ms, r)
      else .error .malformedSignature

/-- Parse struct member signatures up to and including the closing paren. -/
def parseStructF : Nat → List Char → Except SigError (List DbusType × List Char)
  | 0, _ => .error .malformedSignature
  | _ + 1, [] => .error .malformedSignature
  | f + 1, c :: cs =>
    if c = ')' then .ok ([], cs)
    else
      match parseSingleF f (c :: cs) with
      | .error e => .error e
      | .ok (t, r1) =>
        match parseStructF f r1 with
        | .error e => .error e
        | .ok (ts, r2) => .ok (t :: ts, r2)

end

/-- Parse a concatenation of zero or more complete single signatures,
consuming the whole input. -/
def parseAllF : Nat → List Char → Except SigError (List DbusType)
  | 0, _ => .error .malformedSignature
  | _ + 1, [] => .ok []
  | f + 1, cs =>
    match parseSingleF (f + 1) cs with
    | .error e => .error e
    | .ok (t, r) =>
      match parseAllF f r with
      | .error e => .error e
      | .ok ts => .ok (t :: ts)

/-- Modelled from the spec: parse of a signature string into the sequence of
complete single-type signatures it concatenates (section 4.1). -/
def parse (s : String) : Except SigError (List DbusType) :=
  parseAllF (2 * s.data.length + 2) s.data

theorem tcode_text (c : Char) (t : DbusType) (h : tcodeOf? c = some t) :
    typeText t = [c] := by
  simp only [tcodeOf?] at h
  by_cases e1 : c = 'y'
  · rw [if_pos e1] at h; injection h with hx; subst hx; subst e1; rfl
  rw [if_neg e1] at h
  by_cases e2 : c = 'b'
  · rw [if_pos e2] at h; injection h with hx; subst hx; subst e2; rfl
  rw [if_neg e2] at h
  by_cases e3 : c = 'n'
  · rw [if_pos e3] at h; injection h with hx; subst hx; subst e3; rfl
  rw [if_neg e3] at h
  by_cases e4 : c = 'q'
  · rw [if_pos e4] at h; injection h with hx; subst hx; subst e4; rfl
  rw [if_neg e4] at h
  by_cases e5 : c = 'i'
  · rw [if_pos e5] at h; injection h with hx; subst hx; subst e5; rfl
  rw [if_neg e5] at h
  by_cases e6 : c = 'u'
  · rw [if_pos e6] at h; injection h with hx; subst hx; subst e6; rfl
  rw [if_neg e6] at h
  by_cases e7 : c = 'x'
  · rw [if_pos e7] at h; injection h with hx; subst hx; subst e7; rfl
  rw [if_neg e7] at h
  by_cases e8 : c = 't'
  · rw [if_pos e8] at h; injection h with hx; subst hx; subst e8; rfl
  rw [if_neg e8] at h
  by_cases e9 : c = 'd'
  · rw [if_pos e9] at h; injection h with hx; subst hx; subst e9; rfl
  rw [if_neg e9] at h
  by_cases e10 : c = 's'
  · rw [if_pos e10] at h; injection h with hx; subst hx; subst e10; rfl
  rw [if_neg e10] at h
  by_cases e11 : c = 'o'
  · rw [if_pos e11] at h; injection h with hx; subst hx; subst e11; rfl
  rw [if_neg e11] at h
  by_cases e12 : c = 'g'
  · rw [if_pos e12] at h; injection h with hx; subst hx; subst e12; rfl
  rw [if_neg e12] at h
  by_cases e13 : c = 'v'
  · rw [if_pos e13] at h; injection h with hx; subst hx; subst e13; rfl
  rw [if_neg e13] at h
  by_cases e14 : c = 'h'
  · rw [if_pos e14] at h; injection h with hx; subst hx; subst e14; rfl
  rw [if_neg e14] at h
  exact Option.noConfusion h

theorem parse_text_aux (f : Nat) :
    (∀ cs t rest, parseSingleF f cs = .ok (t, rest) → typeText t ++ rest = cs) ∧
    (∀ cs ts rest, parseStructF f cs = .ok (ts, rest) →
      typeTextList ts ++ ')' :: rest = cs) := by
  induction f with
  | zero =>
    constructor
    · intro cs t rest h; simp [parseSingleF] at h
    · intro cs ts rest h; simp [parseStructF] at h
  | succ f ih =>
    constructor
    · intro cs t rest h
      match cs with
      | [] => simp [parseSingleF] at h
      | c :: cs2 =>
        simp only [parseSingleF] at h
        match htc : tcodeOf? c with
        | some t2 =>
          rw [htc] at h
          simp only [Except.ok.injEq, Prod.mk.injEq] at h
          obtain ⟨rfl, rfl⟩ := h
          rw [tcode_text c _ htc]; rfl
        | none =>
          rw [htc] at h
          simp only at h
          by_cases ha : c = 'a'
          · -- the leading char is the array marker
            rw [if_pos ha] at h
            subst ha
            match cs2 with
            | [] => simp at h
            | c2 :: cs3 =>
              simp only at h
              by_cases hd : c2 = '\x7b'
              · -- dict entry
                rw [if_pos hd] at h
                subst hd
                match h1 : parseSingleF f cs3 with
                | .error e => rw [h1] at h; exact absurd h (by simp)
                | .ok (k, r1) =>
                  rw [h1] at h
                  simp only at h
                  by_cases hb : k.isBasic
                  · rw [if_pos hb] at h
                    match h2 : parseSingleF f r1 with
                    | .error e => rw [h2] at h; exact absurd h (by simp)
                    | .ok (v, r2) =>
                      rw [h2] at h
                      simp only at h
                      cases r2 with
                      | nil => simp at h
                      | cons c3 r3 =>
                        simp only at h
                        by_cases hcl : c3 = '\x7d'
                        · rw [if_pos hcl] at h
                          subst hcl
                          simp only [Except.ok.injEq, Prod.mk.injEq] at h
                          obtain ⟨rfl, rfl⟩ := h
                          have e1 := ih.1 cs3 k r1 h1
                          have e2 := ih.1 r1 v _ h2
                          simp only [typeText]
                          rw [← e1, ← e2]
                          simp
                        · rw [if_neg hcl] at h; exact absurd h (by simp)
                  · rw [if_neg hb] at h; exact absurd h (by simp)
              · -- plain array
                rw [if_neg hd] at h
                match h1 : parseSingleF f (c2 :: cs3) with
                | .error e => rw [h1] at h; exact absurd h (by simp)
                | .ok (t2, r) =>
                  rw [h1] at h
                  simp only [Except.ok.injEq, Prod.mk.injEq] at h
                  obtain ⟨rfl, rfl⟩ := h
                  have e1 := ih.1 (c2 :: cs3) t2 r h1
                  simp only [typeText]
                  rw [← e1]
                  simp
          · rw [if_neg ha] at h
            by_cases hp : c = '('
            · -- struct
              rw [if_pos hp] at h
              subst hp
              match h1 : parseStructF f cs2 with
              | .error e => rw [h1] at h; exact absurd h (by simp)
              | .ok (ms, r) =>
                rw [h1] at h
                simp only at h
                by_cases he : ms.isEmpty
                · rw [if_pos he] at h; exact absurd h (by simp)
                · rw [if_neg he] at h
                  simp only [Except.ok.injEq, Prod.mk.injEq] at h
                  obtain ⟨rfl, rfl⟩ := h
                  have e1 := ih.2 cs2 ms r h1
                  simp only [typeText]
                  rw [← e1]
                  simp
            · rw [if_neg hp] at h; exact absurd h (by simp)
    · intro cs ts rest h
      match cs with
      | [] => simp [parseStructF] at h
      | c :: cs2 =>
        simp only [parseStructF] at h
        by_cases hc : c = ')'
        · rw [if_pos hc] at h
          subst hc
          simp only [Except.ok.injEq, Prod.mk.injEq] at h
          obtain ⟨rfl, rfl⟩ := h
          rfl
        · rw [if_neg hc] at h
          match h1 : parseSingleF f (c :: cs2) with
          | .error e => rw [h1] at h; exact absurd h (by simp)
          | .ok (t, r1) =>
            rw [h1] at h
            simp only at h
            match h2 : parseStructF f r1 with
            | .error e => rw [h2] at h; exact absurd h (by simp)
            | .ok (ts2, r2) =>
              rw [h2] at h
              simp only [Except.ok.injEq, Prod.mk.injEq] at h
              obtain ⟨rfl, rfl⟩ := h
              have e1 := (ih.1) (c :: cs2) t r1 h1
              have e2 := (ih.2) r1 ts2 r2 h2
              simp only [typeTextList]
              rw [← e1, ← e2]
              simp

theorem parseAll_text (f : Nat) :
    ∀ cs ts, parseAllF f cs = .ok ts → typeTextList ts = cs := by
  induction f with
  | zero => intro cs ts h; simp [parseAllF] at h
  | succ f ih =>
    intro cs ts h
    match cs with
    | [] =>
      simp only [parseAllF, Except.ok.injEq] at h
      subst h; rfl
    | c :: cs2 =>
      simp only [parseAllF] at h
      match h1 : parseSingleF (f + 1) (c :: cs2) with
      | .error e => rw [h1] at h; exact absurd h (by simp)
      | .ok (t, r) =>
        rw [h1] at h
        simp only at h
        match h2 : parseAllF f r with
        | .error e => rw [h2] at h; exact absurd h (by simp)
        | .ok ts2 =>
          rw [h2] at h
          simp only [Except.ok.injEq] at h
          subst h
          have e1 := (parse_text_aux (f + 1)).1 (c :: cs2) t r h1
          have e2 := ih r ts2 h2
          simp only [typeTextList]
          rw [← e1, e2]

/-- Claim C1: for every valid signature text t (one the signature model
parses successfully), rendering the parsed signature sequence back to text
yields t exactly, so parsing and rendering round-trip. -/
theorem parse_to_text_roundtrip (t : String) (sigs : List DbusType)
    (h : parse t = .ok sigs) : sigsToText sigs = t := by
  obtain ⟨cs⟩ := t
  have e := parseAll_text (2 * cs.length + 2) cs sigs h
  simpa [sigsToText] using congrArg String.mk e

/-- Witness for C1 at the concrete signature text of a dict of variants
followed by a nested struct and a uint64. -/
theorem parse_to_text_roundtrip_witness :
    parse "a\x7bsv\x7d(ia(si))t" =
      .ok [DbusType.dict .string .variant,
        .struct [.int32, .array (.struct [.string, .int32])], .uint64] ∧
    sigsToText [DbusType.dict .string .variant,
        .struct [.int32, .array (.struct [.string, .int32])], .uint64] =
      "a\x7bsv\x7d(ia(si))t" :=
  ⟨rfl, parse_to_text_roundtrip _ _ rfl⟩

/-- Modelled from the spec: the Dynamic Value model supplied by the host
environment (section 3).  Float payloads are represented by exact rationals
standing for the numeric value the host float carries. -/
inductive Value where
  | nothing
  | bool (b : Bool)
  | int (i : Int)
  | float (q : Rat)
  | string (s : String)
  | binary (bs : List Nat)
  | list (xs : List Value)
  | record (entries : List (String × Value))
  | duration (ns : Int)

/-- Modelled from the spec: Wire Values, each tagged by exactly one
signature variant (section 3).  Unsigned payloads are naturals and signed
ones integers; ranges are enforced at encode time. -/
inductive WireValue where
  | byte (n : Nat)
  | boolean (b : Bool)
  | int16 (i : Int)
  | uint16 (n : Nat)
  | int32 (i : Int)
  | uint32 (n : Nat)
  | int64 (i : Int)
  | uint64 (n : Nat)
  | double (q : Rat)
  | string (s : String)
  | objectPath (s : String)
  | signature (s : String)
  | array (elem : DbusType) (elems : List WireValue)
  | struct (members : List WireValue)
  | dict (key : DbusType) (value : DbusType) (entries : List (WireValue × WireValue))
  | variant (sig : DbusType) (inner : WireValue)
  | unixFd (n : Nat)

/-- Modelled from the spec: decoding stringifies non-string dict keys
(section 4.2).  Keys are always basic types, so only the scalar shapes are
ever reached from a well-formed dict. -/
def stringifyKey : Value → String
  | .string s => s
  | .int i => toString i
  | .bool b => if b then "true" else "false"
  | .float q =>
    if q.den = 1 then toString q.num
    else toString q.num ++ "/" ++ toString q.den
  | _ => ""

mutual

/-- Modelled from the spec: decoding a wire value back to a Dynamic Value is
total — structs decode to lists, dicts to records with stringified keys,
variants transparently to the decoding of their inner value (section 4.2). -/
def decode : WireValue → Value
  | .byte n => .int n
  | .boolean b => .bool b
  | .int16 i => .int i
  | .uint16 n => .int n
  | .int32 i => .int i
  | .uint32 n => .int n
  | .int64 i => .int i
  | .uint64 n => .int n
  | .double q => .float q
  | .string s => .string s
  | .objectPath s => .string s
  | .signature s => .string s
  | .array _ ws => .list (decodeList ws)
  | .struct ws => .list (decodeList ws)
  | .dict _ _ es => .record (decodeEntries es)
  | .variant _ w => decode w
  | .unixFd n => .int n

def decodeList : List WireValue → List Value
  | [] => []
  | w :: ws => decode w :: decodeList ws

def decodeEntries : List (WireValue × WireValue) → List (String × Value)
  | [] => []
  | e :: es => (stringifyKey (decode e.1), decode e.2) :: decodeEntries es

end

theorem decodeList_eq_map (ws : List WireValue) : decodeList ws = ws.map decode := by
  induction ws with
  | nil => rfl
  | cons w ws ih => simp [decodeList, ih]

theorem decodeEntries_eq_map (es : List (WireValue × WireValue)) :
    decodeEntries es = es.map (fun e => (stringifyKey (decode e.1), decode e.2)) := by
  induction es with
  | nil => rfl
  | cons e es ih => simp [decodeEntries, ih]

/-- Encode-time failures of the value conversion engine (section 7). -/
inductive EncodeError where
  | typeMismatch
  | outOfRange
  | arityMismatch
  | ambiguousVariant
  deriving DecidableEq

/-- First signature of the list when every other one equals it — the single
common element signature demanded by variant inference. -/
def unifySigs : List DbusType → Option DbusType
  | [] => none
  | t :: ts => if ts.all (fun x => beqDbusType x t) then some t else none

mutual

/-- Modelled from the spec: signature inference for variant encoding
(section 4.2): bool to Bool, integer to Int64, float to Double, string to
String, a list to an Array of the unified element signature, a record to a
String-keyed Dict of the unified value signature; lists and records whose
member signatures cannot unify to one fail with AmbiguousVariant.  Nothing,
Binary and Duration have no documented mapping and are rejected. -/
def inferSig : Value → Except EncodeError DbusType
  | .bool _ => .ok .bool
  | .int _ => .ok .int64
  | .float _ => .ok .double
  | .string _ => .ok .string
  | .list xs =>
    match inferList xs with
    | .error e => .error e
    | .ok ts =>
      match unifySigs ts with
      | some t => .ok (.array t)
      | none => .error .ambiguousVariant
  | .record es =>
    match inferEntries es with
    | .error e => .error e
    | .ok ts =>
      match unifySigs ts with
      | some t => .ok (.dict .string t)
      | none => .error .ambiguousVariant
  | _ => .error .typeMismatch

def inferList : List Value → Except EncodeError (List DbusType)
  | [] => .ok []
  | x :: xs =>
    match inferSig x with
    | .error e => .error e
    | .ok t =>
      match inferList xs with
      | .error e => .error e
      | .ok ts => .ok (t :: ts)

def inferEntries : List (String × Value) → Except EncodeError (List DbusType)
  | [] => .ok []
  | e :: es =>
    match inferSig e.2 with
    | .error e2 => .error e2
    | .ok t =>
      match inferEntries es with
      | .error e2 => .error e2
      | .ok ts => .ok (t :: ts)

end

/-- Accumulate the decimal digits of a key string. -/
def natOfDigitsAux : List Char → Nat → Option Nat
  | [], acc => some acc
  | c :: cs, acc =>
    if c.isDigit then natOfDigitsAux cs (acc * 10 + (c.toNat - 48)) else none

/-- At least one decimal digit. -/
def natOfDigits? : List Char → Option Nat
  | [] => none
  | cs => natOfDigitsAux cs 0

/-- Modelled from the spec: numeric dict keys are parsed from their string
form (section 4.2).  Exactly the canonical decimal rendering is accepted —
the inverse of the stringification decoding performs — which is what makes
the encode/decode round-trip property of section 8 hold on dict keys. -/
def rawKeyInt (s : String) : Option Int :=
  match s.data with
  | '-' :: cs => (natOfDigits? cs).map (fun n => -(n : Int))
  | cs => (natOfDigits? cs).map (fun n => (n : Int))

def parseKeyInt (s : String) : Option Int :=
  match rawKeyInt s with
  | some i => if toString i = s then some i else none
  | none => none

/-- Parse a numeric key and require it to lie in the wire type's range. -/
def keyIntIn (s : String) (lo hi : Int) (mk : Int → WireValue) :
    Except EncodeError WireValue :=
  match parseKeyInt s with
  | some i => if lo ≤ i ∧ i ≤ hi then .ok (mk i) else .error .outOfRange
  | none => .error .typeMismatch

/-- Modelled from the spec: conversion of a Dynamic record key (always a
string in the dynamic model) to the dict's declared key signature
(section 4.2).  Container and variant keys are not basic and are rejected. -/
def encodeKey : DbusType → String → Except EncodeError WireValue
  | .string, s => .ok (.string s)
  | .objectPath, s => .ok (.objectPath s)
  | .signature, s => .ok (.signature s)
  | .bool, s =>
    if s = "true" then .ok (.boolean true)
    else if s = "false" then .ok (.boolean false)
    else .error .typeMismatch
  | .byte, s => keyIntIn s 0 255 (fun i => .byte i.toNat)
  | .int16, s => keyIntIn s (-32768) 32767 (fun i => .int16 i)
  | .uint16, s => keyIntIn s 0 65535 (fun i => .uint16 i.toNat)
  | .int32, s => keyIntIn s (-2147483648) 2147483647 (fun i => .int32 i)
  | .uint32, s => keyIntIn s 0 4294967295 (fun i => .uint32 i.toNat)
  | .int64, s =>
    keyIntIn s (-9223372036854775808) 9223372036854775807 (fun i => .int64 i)
  | .uint64, s => keyIntIn s 0 18446744073709551615 (fun i => .uint64 i.toNat)
  | .unixFd, s => keyIntIn s 0 4294967295 (fun i => .unixFd i.toNat)
  | .double, s =>
    match parseKeyInt s with
    | some i => .ok (.double (i : Rat))
    | none => .error .typeMismatch
  | _, _ => .error .typeMismatch

/-- Modelled from the spec: numeric coercion accepts any Dynamic numeric
value for a numeric wire type after an exactness and range check, failing
with OutOfRange when the value is not exactly representable and with
TypeMismatch for non-numeric values (section 4.2). -/
def encodeNum (v : Value) (lo hi : Int) (mk : Int → WireValue) :
    Except EncodeError WireValue :=
  match v with
  | .int i => if lo ≤ i ∧ i ≤ hi then .ok (mk i) else .error .outOfRange
  | .float q =>
    if q.den = 1 then
      if lo ≤ q.num ∧ q.num ≤ hi then .ok (mk q.num) else .error .outOfRange
    else .error .outOfRange
  | _ => .error .typeMismatch

/-- Booleans accept only the matching Dynamic kind (section 4.2). -/
def encodeBool (v : Value) : Except EncodeError WireValue :=
  match v with
  | .bool b => .ok (.boolean b)
  | _ => .error .typeMismatch

/-- String, object-path and signature-string types accept only the Dynamic
string kind (section 4.2). -/
def encodeStr (v : Value) (mk : String → WireValue) : Except EncodeError WireValue :=
  match v with
  | .string s => .ok (mk s)
  | _ => .error .typeMismatch

/-- Doubles accept both Dynamic numeric kinds; the payload is carried
exactly (section 4.2). -/
def encodeDouble (v : Value) : Except EncodeError WireValue :=
  match v with
  | .int i => .ok (.double (i : Rat))
  | .float q => .ok (.double q)
  | _ => .error .typeMismatch

mutual

/-- Modelled from the spec: recursive encoding of a Dynamic Value against a
signature (section 4.2).  The first argument is recursion fuel; the wrapper
supplies more than any input can consume, so fuel only runs out on the way
to an error. -/
def encodeF : Nat → Value → DbusType → Except EncodeError WireValue
  | 0, _, _ => .error .typeMismatch
  | f + 1, v, t =>
    match t with
    | .byte => encodeNum v 0 255 (fun i => .byte i.toNat)
    | .bool => encodeBool v
    | .int16 => encodeNum v (-32768) 32767 (fun i => .int16 i)
    | .uint16 => encodeNum v 0 65535 (fun i => .uint16 i.toNat)
    | .int32 => encodeNum v (-2147483648) 2147483647 (fun i => .int32 i)
    | .uint32 => encodeNum v 0 4294967295 (fun i => .uint32 i.toNat)
    | .int64 =>
      encodeNum v (-9223372036854775808) 9223372036854775807 (fun i => .int64 i)
    | .uint64 => encodeNum v 0 18446744073709551615 (fun i => .uint64 i.toNat)
    | .double => encodeDouble v
    | .string => encodeStr v (fun s => .string s)
    | .objectPath => encodeStr v (fun s => .objectPath s)
    | .signature => encodeStr v (fun s => .signature s)
    | .array e =>
      match v with
      | .list xs =>
        match encodeArrF f xs e with
        | .error er => .error er
        | .ok ws => .ok (.array e ws)
      | _ => .error .typeMismatch
    | .struct ms =>
      match v with
      | .list xs =>
        if xs.length = ms.length then
          match encodeStructF f xs ms with
          | .error er => .error er
          | .ok ws => .ok (.struct ws)
        else .error .arityMismatch
      | _ => .error .typeMismatch
    | .dict kt vt =>
      match v with
      | .record es =>
        match encodeDictF f kt vt es with
        | .error er => .error er
        | .ok ps => .ok (.dict kt vt ps)
      | _ => .error .typeMismatch
    | .variant =>
      match inferSig v with
      | .error er => .error er
      | .ok sig =>
        match encodeF f v sig with
        | .error er => .error er
        | .ok w => .ok (.variant sig w)
    | .unixFd => encodeNum v 0 4294967295 (fun i => .unixFd i.toNat)

/-- Encode every element of a Dynamic list against the one element
signature of an array. -/
def encodeArrF : Nat → List Value → DbusType → Except EncodeError (List WireValue)
  | 0, _, _ => .error .typeMismatch
  | _ + 1, [], _ => .ok []
  | f + 1, x :: xs, e =>
    match encodeF f x e with
    | .error er => .error er
    | .ok w =>
      match encodeArrF f xs e with
      | .error er => .error er
      | .ok ws => .ok (w :: ws)

/-- Encode list element i against struct member signature i. -/
def encodeStructF : Nat → List Value → List DbusType → Except EncodeError (List WireValue)
  | 0, _, _ => .error .typeMismatch
  | _ + 1, [], _ => .ok []
  | _ + 1, _ :: _, [] => .error .arityMismatch
  | f + 1, x :: xs, m :: ms =>
    match encodeF f x m with
    | .error er => .error er
    | .ok w =>
      match encodeStructF f xs ms with
      | .error er => .error er
      | .ok ws => .ok (w :: ws)

/-- Encode every record entry: the key against the dict key signature, the
value against the dict value signature. -/
def encodeDictF : Nat → DbusType → DbusType → List (String × Value) →
    Except EncodeError (List (WireValue × WireValue))
  | 0, _, _, _ => .error .typeMismatch
  | _ + 1, _, _, [] => .ok []
  | f + 1, kt, vt, e :: es =>
    match encodeKey kt e.1 with
    | .error er => .error er
    | .ok kw =>
      match encodeF f e.2 vt with
      | .error er => .error er
      | .ok vw =>
        match encodeDictF f kt vt es with
        | .error er => .error er
        | .ok ps => .ok ((kw, vw) :: ps)

end

mutual

/-- Structural size of a Dynamic Value, used to provision encode fuel. -/
def valSize : Value → Nat
  | .list xs => 1 + valSizeList xs
  | .record es => 1 + valSizeEntries es
  | _ => 1

def valSizeList : List Value → Nat
  | [] => 0
  | x :: xs => 1 + valSize x + valSizeList xs

def valSizeEntries : List (String × Value) → Nat
  | [] => 0
  | e :: es => 1 + valSize e.2 + valSizeEntries es

end

/-- Modelled from the spec: top-level encode, with ample fuel for the value
being encoded (every recursion step either consumes a value constructor or
moves from a variant to its inferred concrete signature). -/
def encode (v : Value) (t : DbusType) : Except EncodeError WireValue :=
  encodeF (2 * valSize v + 1) v t

/-- Modelled from the spec: shape-equality of a decoded result with the
original Dynamic Value, numeric widening aside (section 8).  An integer may
come back as the numerically equal float and a float as the numerically
equal integer; lists and records must agree pointwise, record keys as
strings; everything else must agree exactly. -/
inductive ShapeEq : Value → Value → Prop
  | nothing : ShapeEq .nothing .nothing
  | bool (b : Bool) : ShapeEq (.bool b) (.bool b)
  | int (i : Int) : ShapeEq (.int i) (.int i)
  | float (q : Rat) : ShapeEq (.float q) (.float q)
  | intFloat (i : Int) (q : Rat) : q.num = i → q.den = 1 → ShapeEq (.int i) (.float q)
  | floatInt (i : Int) (q : Rat) : q = (i : Rat) → ShapeEq (.float q) (.int i)
  | string (s : String) : ShapeEq (.string s) (.string s)
  | binary (bs : List Nat) : ShapeEq (.binary bs) (.binary bs)
  | duration (ns : Int) : ShapeEq (.duration ns) (.duration ns)
  | list (xs ys : List Value) :
      List.Forall₂ ShapeEq xs ys → ShapeEq (.list xs) (.list ys)
  | record (es fs : List (String × Value)) :
      es.map Prod.fst = fs.map Prod.fst →
      List.Forall₂ ShapeEq (es.map Prod.snd) (fs.map Prod.snd) →
      ShapeEq (.record es) (.record fs)

theorem parseKeyInt_toString (s : String) (i : Int) (h : parseKeyInt s = some i) :
    toString i = s := by
  unfold parseKeyInt at h
  match hr : rawKeyInt s with
  | none => rw [hr] at h; exact Option.noConfusion h
  | some j =>
    rw [hr] at h
    simp only at h
    by_cases hc : toString j = s
    · rw [if_pos hc] at h
      injection h with h2
      subst h2
      exact hc
    · rw [if_neg hc] at h
      exact Option.noConfusion h

theorem keyIntIn_roundtrip (s : String) (lo hi : Int) (mk : Int → WireValue)
    (kw : WireValue)
    (hdec : ∀ i, lo ≤ i → i ≤ hi → decode (mk i) = .int i)
    (h : keyIntIn s lo hi mk = .ok kw) : stringifyKey (decode kw) = s := by
  unfold keyIntIn at h
  match hp : parseKeyInt s with
  | none => rw [hp] at h; exact Except.noConfusion h
  | some i =>
    rw [hp] at h
    simp only at h
    by_cases hr : lo ≤ i ∧ i ≤ hi
    · rw [if_pos hr] at h
      injection h with h2
      subst h2
      rw [hdec i hr.1 hr.2]
      simp only [stringifyKey]
      exact parseKeyInt_toString s i hp
    · rw [if_neg hr] at h
      exact Except.noConfusion h

theorem encodeKey_roundtrip (kt : DbusType) (s : String) (kw : WireValue)
    (h : encodeKey kt s = .ok kw) : stringifyKey (decode kw) = s := by
  cases kt with
  | string =>
    simp only [encodeKey] at h
    injection h with h2; subst h2; rfl
  | objectPath =>
    simp only [encodeKey] at h
    injection h with h2; subst h2; rfl
  | signature =>
    simp only [encodeKey] at h
    injection h with h2; subst h2; rfl
  | bool =>
    simp only [encodeKey] at h
    by_cases ht : s = "true"
    · rw [if_pos ht] at h
      injection h with h2; subst h2; subst ht; rfl
    · rw [if_neg ht] at h
      by_cases hf : s = "false"
      · rw [if_pos hf] at h
        injection h with h2; subst h2; subst hf; rfl
      · rw [if_neg hf] at h
        exact Except.noConfusion h
  | byte =>
    refine keyIntIn_roundtrip s 0 255 _ kw (fun i h1 h2 => ?_) (by simpa [encodeKey] using h)
    simp only [decode]
    rw [Int.toNat_of_nonneg h1]
  | int16 =>
    refine keyIntIn_roundtrip s _ _ _ kw (fun i h1 h2 => ?_) (by simpa [encodeKey] using h)
    simp [decode]
  | uint16 =>
    refine keyIntIn_roundtrip s 0 65535 _ kw (fun i h1 h2 => ?_) (by simpa [encodeKey] using h)
    simp only [decode]
    rw [Int.toNat_of_nonneg h1]
  | int32 =>
    refine keyIntIn_roundtrip s _ _ _ kw (fun i h1 h2 => ?_) (by simpa [encodeKey] using h)
    simp [decode]
  | uint32 =>
    refine keyIntIn_roundtrip s 0 4294967295 _ kw (fun i h1 h2 => ?_)
      (by simpa [encodeKey] using h)
    simp only [decode]
    rw [Int.toNat_of_nonneg h1]
  | int64 =>
    refine keyIntIn_roundtrip s _ _ _ kw (fun i h1 h2 => ?_) (by simpa [encodeKey] using h)
    simp [decode]
  | uint64 =>
    refine keyIntIn_roundtrip s 0 18446744073709551615 _ kw (fun i h1 h2 => ?_)
      (by simpa [encodeKey] using h)
    simp only [decode]
    rw [Int.toNat_of_nonneg h1]
  | unixFd =>
    refine keyIntIn_roundtrip s 0 4294967295 _ kw (fun i h1 h2 => ?_)
      (by simpa [encodeKey] using h)
    simp only [decode]
    rw [Int.toNat_of_nonneg h1]
  | double =>
    simp only [encodeKey] at h
    match hp : parseKeyInt s with
    | none => rw [hp] at h; exact Except.noConfusion h
    | some i =>
      rw [hp] at h
      injection h with h2
      subst h2
      simp only [decode, stringifyKey, Rat.den_intCast, Rat.num_intCast, if_pos]
      exact parseKeyInt_toString s i hp
  | array e =>
    simp only [encodeKey] at h
    exact Except.noConfusion h
  | struct ms =>
    simp only [encodeKey] at h
    exact Except.noConfusion h
  | dict k v =>
    simp only [encodeKey] at h
    exact Except.noConfusion h
  | variant =>
    simp only [encodeKey] at h
    exact Except.noConfusion h

theorem encodeNum_shape (v : Value) (lo hi : Int) (mk : Int → WireValue) (w : WireValue)
    (hdec : ∀ i, lo ≤ i → i ≤ hi → decode (mk i) = .int i)
    (h : encodeNum v lo hi mk = .ok w) : ShapeEq (decode w) v := by
  cases v <;> simp only [encodeNum] at h <;> try exact Except.noConfusion h
  case int i =>
    by_cases hr : lo ≤ i ∧ i ≤ hi
    · rw [if_pos hr] at h
      injection h with h2; subst h2
      rw [hdec i hr.1 hr.2]
      exact ShapeEq.int i
    · rw [if_neg hr] at h; exact Except.noConfusion h
  case float q =>
    by_cases hd : q.den = 1
    · rw [if_pos hd] at h
      by_cases hr : lo ≤ q.num ∧ q.num ≤ hi
      · rw [if_pos hr] at h
        injection h with h2; subst h2
        rw [hdec q.num hr.1 hr.2]
        exact ShapeEq.intFloat q.num q rfl hd
      · rw [if_neg hr] at h; exact Except.noConfusion h
    · rw [if_neg hd] at h; exact Except.noConfusion h

theorem encodeBool_shape (v : Value) (w : WireValue) (h : encodeBool v = .ok w) :
    ShapeEq (decode w) v := by
  cases v <;> simp only [encodeBool] at h <;> try exact Except.noConfusion h
  case bool b =>
    injection h with h2; subst h2
    exact ShapeEq.bool b

theorem encodeStr_shape (v : Value) (mk : String → WireValue) (w : WireValue)
    (hdec : ∀ s, decode (mk s) = .string s)
    (h : encodeStr v mk = .ok w) : ShapeEq (decode w) v := by
  cases v <;> simp only [encodeStr] at h <;> try exact Except.noConfusion h
  case string s =>
    injection h with h2; subst h2
    rw [hdec s]
    exact ShapeEq.string s

theorem encodeDouble_shape (v : Value) (w : WireValue) (h : encodeDouble v = .ok w) :
    ShapeEq (decode w) v := by
  cases v <;> simp only [encodeDouble] at h <;> try exact Except.noConfusion h
  case int i =>
    injection h with h2; subst h2
    exact ShapeEq.floatInt i _ rfl
  case float q =>
    injection h with h2; subst h2
    exact ShapeEq.float q

theorem encodeF_shape (f : Nat) :
    (∀ v t w, encodeF f v t = .ok w → ShapeEq (decode w) v) ∧
    (∀ xs e ws, encodeArrF f xs e = .ok ws → List.Forall₂ ShapeEq (decodeList ws) xs) ∧
    (∀ xs ms ws, encodeStructF f xs ms = .ok ws → List.Forall₂ ShapeEq (decodeList ws) xs) ∧
    (∀ kt vt es ps, encodeDictF f kt vt es = .ok ps →
      (decodeEntries ps).map Prod.fst = es.map Prod.fst ∧
      List.Forall₂ ShapeEq ((decodeEntries ps).map Prod.snd) (es.map Prod.snd)) := by
  induction f with
  | zero =>
    refine ⟨?_, ?_, ?_, ?_⟩
    · intro v t w h; simp [encodeF] at h
    · intro xs e ws h; simp [encodeArrF] at h
    · intro xs ms ws h; simp [encodeStructF] at h
    · intro kt vt es ps h; simp [encodeDictF] at h
  | succ f ih =>
    obtain ⟨ih1, ih2, ih3, ih4⟩ := ih
    refine ⟨?_, ?_, ?_, ?_⟩
    · intro v t w h
      cases t with
      | byte =>
        simp only [encodeF] at h
        refine encodeNum_shape v _ _ _ w (fun i h1 h2 => ?_) h
        simp only [decode]
        rw [Int.toNat_of_nonneg h1]
      | bool =>
        simp only [encodeF] at h
        exact encodeBool_shape v w h
      | int16 =>
        simp only [encodeF] at h
        exact encodeNum_shape v (-32768) 32767 (fun i => .int16 i) w
          (fun i h1 h2 => rfl) h
      | uint16 =>
        simp only [encodeF] at h
        refine encodeNum_shape v _ _ _ w (fun i h1 h2 => ?_) h
        simp only [decode]
        rw [Int.toNat_of_nonneg h1]
      | int32 =>
        simp only [encodeF] at h
        exact encodeNum_shape v (-2147483648) 2147483647 (fun i => .int32 i) w
          (fun i h1 h2 => rfl) h
      | uint32 =>
        simp only [encodeF] at h
        refine encodeNum_shape v _ _ _ w (fun i h1 h2 => ?_) h
        simp only [decode]
        rw [Int.toNat_of_nonneg h1]
      | int64 =>
        simp only [encodeF] at h
        exact encodeNum_shape v (-9223372036854775808) 9223372036854775807
          (fun i => .int64 i) w (fun i h1 h2 => rfl) h
      | uint64 =>
        simp only [encodeF] at h
        refine encodeNum_shape v _ _ _ w (fun i h1 h2 => ?_) h
        simp only [decode]
        rw [Int.toNat_of_nonneg h1]
      | double =>
        simp only [encodeF] at h
        exact encodeDouble_shape v w h
      | string =>
        simp only [encodeF] at h
        exact encodeStr_shape v (fun s => .string s) w (fun s => rfl) h
      | objectPath =>
        simp only [encodeF] at h
        exact encodeStr_shape v (fun s => .objectPath s) w (fun s => rfl) h
      | signature =>
        simp only [encodeF] at h
        exact encodeStr_shape v (fun s => .signature s) w (fun s => rfl) h
      | unixFd =>
        simp only [encodeF] at h
        refine encodeNum_shape v _ _ _ w (fun i h1 h2 => ?_) h
        simp only [decode]
        rw [Int.toNat_of_nonneg h1]
      | array e =>
        simp only [encodeF] at h
        cases v <;> simp only at h <;> try exact Except.noConfusion h
        case list xs =>
          match h1 : encodeArrF f xs e with
          | .error er => rw [h1] at h; exact Except.noConfusion h
          | .ok ws =>
            rw [h1] at h
            injection h with h2
            subst h2
            simp only [decode]
            exact ShapeEq.list _ _ (ih2 xs e ws h1)
      | struct ms =>
        simp only [encodeF] at h
        cases v <;> simp only at h <;> try exact Except.noConfusion h
        case list xs =>
          by_cases hl : xs.length = ms.length
          · rw [if_pos hl] at h
            match h1 : encodeStructF f xs ms with
            | .error er => rw [h1] at h; exact Except.noConfusion h
            | .ok ws =>
              rw [h1] at h
              injection h with h2
              subst h2
              simp only [decode]
              exact ShapeEq.list _ _ (ih3 xs ms ws h1)
          · rw [if_neg hl] at h; exact Except.noConfusion h
      | dict kt vt =>
        simp only [encodeF] at h
        cases v <;> simp only at h <;> try exact Except.noConfusion h
        case record es =>
          match h1 : encodeDictF f kt vt es with
          | .error er => rw [h1] at h; exact Except.noConfusion h
          | .ok ps =>
            rw [h1] at h
            injection h with h2
            subst h2
            simp only [decode]
            obtain ⟨hm, hs⟩ := ih4 kt vt es ps h1
            exact ShapeEq.record _ _ hm hs
      | variant =>
        simp only [encodeF] at h
        match h1 : inferSig v with
        | .error er => rw [h1] at h; exact Except.noConfusion h
        | .ok sig =>
          rw [h1] at h
          simp only at h
          match h2 : encodeF f v sig with
          | .error er => rw [h2] at h; exact Except.noConfusion h
          | .ok w2 =>
            rw [h2] at h
            injection h with h3
            subst h3
            simp only [decode]
            exact ih1 v sig w2 h2
    · intro xs e ws h
      cases xs with
      | nil =>
        simp only [encodeArrF] at h
        injection h with h2
        subst h2
        exact List.Forall₂.nil
      | cons x xs2 =>
        simp only [encodeArrF] at h
        match h1 : encodeF f x e with
        | .error er => rw [h1] at h; exact Except.noConfusion h
        | .ok w1 =>
          rw [h1] at h
          simp only at h
          match h2 : encodeArrF f xs2 e with
          | .error er => rw [h2] at h; exact Except.noConfusion h
          | .ok ws1 =>
            rw [h2] at h
            injection h with h3
            subst h3
            simp only [decodeList]
            exact List.Forall₂.cons (ih1 x e w1 h1) (ih2 xs2 e ws1 h2)
    · intro xs ms ws h
      cases xs with
      | nil =>
        simp only [encodeStructF] at h
        injection h with h2
        subst h2
        exact List.Forall₂.nil
      | cons x xs2 =>
        cases ms with
        | nil => simp only [encodeStructF] at h; exact Except.noConfusion h
        | cons m ms2 =>
          simp only [encodeStructF] at h
          match h1 : encodeF f x m with
          | .error er => rw [h1] at h; exact Except.noConfusion h
          | .ok w1 =>
            rw [h1] at h
            simp only at h
            match h2 : encodeStructF f xs2 ms2 with
            | .error er => rw [h2] at h; exact Except.noConfusion h
            | .ok ws1 =>
              rw [h2] at h
              injection h with h3
              subst h3
              simp only [decodeList]
              exact List.Forall₂.cons (ih1 x m w1 h1) (ih3 xs2 ms2 ws1 h2)
    · intro kt vt es ps h
      cases es with
      | nil =>
        simp only [encodeDictF] at h
        injection h with h2
        subst h2
        exact ⟨rfl, List.Forall₂.nil⟩
      | cons e2 es2 =>
        simp only [encodeDictF] at h
        match h1 : encodeKey kt e2.1 with
        | .error er => rw [h1] at h; exact Except.noConfusion h
        | .ok kw =>
          rw [h1] at h
          simp only at h
          match h2 : encodeF f e2.2 vt with
          | .error er => rw [h2] at h; exact Except.noConfusion h
          | .ok vw =>
            rw [h2] at h
            simp only at h
            match h3 : encodeDictF f kt vt es2 with
            | .error er => rw [h3] at h; exact Except.noConfusion h
            | .ok ps1 =>
              rw [h3] at h
              injection h with h4
              subst h4
              obtain ⟨hm, hs⟩ := ih4 kt vt es2 ps1 h3
              constructor
              · simp only [decodeEntries, List.map_cons]
                rw [encodeKey_roundtrip kt e2.1 kw h1, hm]
              · simp only [decodeEntries, List.map_cons]
                exact List.Forall₂.cons (ih1 e2.2 vt vw h2) hs

/-- Claim C2: whenever encoding a Dynamic Value against a signature
succeeds, decoding the resulting wire value yields a Dynamic Value that is
shape-equal to the original under the signature's own type, numeric
widening aside. -/
theorem encode_decode_shape (v : Value) (t : DbusType) (w : WireValue)
    (h : encode v t = .ok w) : ShapeEq (decode w) v :=
  (encodeF_shape (2 * valSize v + 1)).1 v t w h

/-- Witness for C2 at a struct of a string, a byte and a double, the byte
fed from a Dynamic integer and the double from a Dynamic float. -/
theorem encode_decode_shape_witness :
    encode (.list [.string "hi", .int 5, .float 2])
        (.struct [.string, .byte, .double]) =
      .ok (.struct [.string "hi", .byte 5, .double 2]) ∧
    ShapeEq (decode (.struct [.string "hi", .byte 5, .double 2]))
      (.list [.string "hi", .int 5, .float 2]) :=
  ⟨rfl, encode_decode_shape (.list [.string "hi", .int 5, .float 2])
    (.struct [.string, .byte, .double])
    (.struct [.string "hi", .byte 5, .double 2]) rfl⟩

/-- Claim C3: decode is total — by construction it maps every well-formed
wire value to a Dynamic Value and cannot return an error — and it decodes
structs to Dynamic lists, dicts to Dynamic records whose non-string keys
are stringified, and variants transparently to the decoding of the inner
value. -/
theorem decode_total_structural :
    (∀ ws, decode (.struct ws) = .list (ws.map decode)) ∧
    (∀ kt vt es, decode (.dict kt vt es) =
      .record (es.map (fun e => (stringifyKey (decode e.1), decode e.2)))) ∧
    (∀ sig w, decode (.variant sig w) = decode w) ∧
    (∀ e ws, decode (.array e ws) = .list (ws.map decode)) := by
  refine ⟨?_, ?_, ?_, ?_⟩
  · intro ws; simp [decode, decodeList_eq_map]
  · intro kt vt es; simp [decode, decodeEntries_eq_map]
  · intro sig w; rfl
  · intro e ws; simp [decode, decodeList_eq_map]

theorem encodeStructF_get (f : Nat) : ∀ xs ms ws, encodeStructF f xs ms = .ok ws →
    ws.length = xs.length ∧
    ∀ i, ∀ hx : i < xs.length, ∀ hm : i < ms.length, ∀ hw : i < ws.length,
      ∃ g, encodeF g (xs.get ⟨i, hx⟩) (ms.get ⟨i, hm⟩) = .ok (ws.get ⟨i, hw⟩) := by
  induction f with
  | zero => intro xs ms ws h; simp [encodeStructF] at h
  | succ f ih =>
    intro xs ms ws h
    cases xs with
    | nil =>
      simp only [encodeStructF] at h
      injection h with h2
      subst h2
      exact ⟨rfl, fun i hx hm hw => absurd hx (Nat.not_lt_zero i)⟩
    | cons x xs2 =>
      cases ms with
      | nil => simp only [encodeStructF] at h; exact Except.noConfusion h
      | cons m ms2 =>
        simp only [encodeStructF] at h
        match h1 : encodeF f x m with
        | .error er => rw [h1] at h; exact Except.noConfusion h
        | .ok w1 =>
          rw [h1] at h
          simp only at h
          match h2 : encodeStructF f xs2 ms2 with
          | .error er => rw [h2] at h; exact Except.noConfusion h
          | .ok ws1 =>
            rw [h2] at h
            injection h with h3
            subst h3
            obtain ⟨hlen, hget⟩ := ih xs2 ms2 ws1 h2
            refine ⟨by simp [hlen], fun i hx hm hw => ?_⟩
            cases i with
            | zero => exact ⟨f, h1⟩
            | succ j =>
              have hx2 : j < xs2.length := Nat.lt_of_succ_lt_succ hx
              have hm2 : j < ms2.length := Nat.lt_of_succ_lt_succ hm
              have hw2 : j < ws1.length := Nat.lt_of_succ_lt_succ hw
              simpa using hget j hx2 hm2 hw2

/-- Claim C4: encoding a Dynamic list against a struct signature succeeds
only when the list length equals the struct arity, in which case element i
is encoded against member signature i; any length mismatch fails with
ArityMismatch. -/
theorem struct_arity (xs : List Value) (ms : List DbusType) :
    (xs.length ≠ ms.length →
      encode (.list xs) (.struct ms) = .error .arityMismatch) ∧
    (∀ w, encode (.list xs) (.struct ms) = .ok w →
      xs.length = ms.length ∧
      ∃ ws, w = .struct ws ∧ ws.length = xs.length ∧
        ∀ i, ∀ hx : i < xs.length, ∀ hm : i < ms.length, ∀ hw : i < ws.length,
          ∃ g, encodeF g (xs.get ⟨i, hx⟩) (ms.get ⟨i, hm⟩) = .ok (ws.get ⟨i, hw⟩)) := by
  constructor
  · intro hne
    simp only [encode, encodeF]
    rw [if_neg hne]
  · intro w h
    simp only [encode, encodeF] at h
    by_cases hl : xs.length = ms.length
    · rw [if_pos hl] at h
      refine ⟨hl, ?_⟩
      match h1 : encodeStructF (2 * valSize (.list xs)) xs ms with
      | .error er => rw [h1] at h; exact Except.noConfusion h
      | .ok ws =>
        rw [h1] at h
        injection h with h2
        subst h2
        obtain ⟨hlen, hget⟩ := encodeStructF_get _ xs ms ws h1
        exact ⟨ws, rfl, hlen, hget⟩
    · rw [if_neg hl] at h; exact Except.noConfusion h

/-- Witness for C4: a five-element list against an arity-three struct
signature fails with ArityMismatch. -/
theorem struct_arity_witness :
    encode (.list [.int 1, .int 2, .int 3, .int 4, .int 5])
        (.struct [.string, .int32, .bool]) = .error .arityMismatch :=
  (struct_arity _ _).1 (by decide)

/-- Claim C5: a heterogeneous Dynamic list whose inferred element
signatures cannot unify to one common element signature — for example one
mixing string and integer elements — fails with AmbiguousVariant when
encoded into a variant with no explicit inner signature. -/
theorem variant_ambiguous (xs : List Value) (ts : List DbusType)
    (hinf : inferList xs = .ok ts) (huni : unifySigs ts = none) :
    encode (.list xs) .variant = .error .ambiguousVariant := by
  simp only [encode, encodeF]
  have hsig : inferSig (.list xs) = .error .ambiguousVariant := by
    simp only [inferSig]
    rw [hinf]
    simp only
    rw [huni]
  rw [hsig]

/-- Witness for C5 at the list mixing a string and an integer. -/
theorem variant_ambiguous_witness :
    inferList [Value.string "a", Value.int 1] =
      .ok [DbusType.string, DbusType.int64] ∧
    unifySigs [DbusType.string, DbusType.int64] = none ∧
    encode (.list [.string "a", .int 1]) .variant = .error .ambiguousVariant :=
  ⟨rfl, rfl, variant_ambiguous _ _ rfl rfl⟩

/-- Pattern compile failure (section 7). -/
inductive PatternError where
  | invalidPattern
  deriving DecidableEq

/-- Modelled from the spec: one segment-matcher of a Bus Name Pattern — a
literal segment, a single-level wildcard or a multi-level wildcard
(section 3). -/
inductive Matcher where
  | lit (s : String)
  | anyOne
  | anyMany
  deriving DecidableEq

/-- Split on the dot separator, keeping empty segments. -/
def splitChAux : List Char → List Char → List (List Char)
  | [], acc => [acc.reverse]
  | c :: cs, acc =>
    if c = '.' then acc.reverse :: splitChAux cs [] else splitChAux cs (c :: acc)

/-- Segments of a dot-separated bus name. -/
def splitSegs (s : String) : List String := (splitChAux s.data []).map String.mk

/-- A lone wildcard segment is a single-level matcher, a doubled wildcard a
multi-level matcher, anything else a literal matcher (section 4.5). -/
def matcherOfSeg (s : String) : Matcher :=
  if s = "*" then .anyOne else if s = "**" then .anyMany else .lit s

/-- True when no multi-level matcher occurs before the final position. -/
def multiOnlyFinal : List Matcher → Bool
  | [] => true
  | [_] => true
  | .anyMany :: _ :: _ => false
  | _ :: ms => multiOnlyFinal ms

/-- Modelled from the spec: compile a pattern text into a Bus Name Pattern,
failing with InvalidPattern when a multi-level wildcard occurs anywhere but
the last position (section 4.5). -/
def compile (pat : String) : Except PatternError (List Matcher) :=
  if multiOnlyFinal ((splitSegs pat).map matcherOfSeg) then
    .ok ((splitSegs pat).map matcherOfSeg)
  else .error .invalidPattern

/-- Modelled from the spec: matching matchers against name segments — a
literal requires exact text equality, a single-level wildcard consumes
exactly one non-empty segment, a trailing multi-level matcher consumes all
remaining segments including zero, and with no multi-level matcher the
counts must agree exactly (section 4.5). -/
def matchSegs : List Matcher → List String → Bool
  | [], [] => true
  | .anyMany :: _, _ => true
  | .lit s :: ms, x :: xs => (s = x) && matchSegs ms xs
  | .anyOne :: ms, x :: xs => (x ≠ "") && matchSegs ms xs
  | _, _ => false

/-- Modelled from the spec: whether a compiled pattern matches a
dot-segmented name (section 4.5); named Pattern.matches in the source
surface, renamed here because Lean reserves that word. -/
def patMatches (p : List Matcher) (name : String) : Bool :=
  matchSegs p (splitSegs name)

/-- What one matcher demands of one segment. -/
def matcherOk : Matcher → String → Bool
  | .lit s, x => s = x
  | .anyOne, x => x ≠ ""
  | .anyMany, _ => true

theorem matcherOfSeg_anyMany (s : String) :
    matcherOfSeg s = .anyMany ↔ s = "**" := by
  unfold matcherOfSeg
  by_cases h1 : s = "*"
  · subst h1
    simp
  · rw [if_neg h1]
    by_cases h2 : s = "**"
    · subst h2
      simp
    · rw [if_neg h2]
      constructor
      · intro hc; exact Matcher.noConfusion hc
      · intro hc; exact absurd hc h2

theorem multiOnlyFinal_eq_dropLast (ms : List Matcher) :
    multiOnlyFinal ms = ms.dropLast.all (fun m => m ≠ .anyMany) := by
  induction ms with
  | nil => rfl
  | cons m ms ih =>
    cases ms with
    | nil => cases m <;> rfl
    | cons m2 ms2 =>
      rw [List.dropLast_cons₂, List.all_cons]
      cases m with
      | anyMany => simp [multiOnlyFinal]
      | lit s => simp [multiOnlyFinal, ih]
      | anyOne => simp [multiOnlyFinal, ih]

/-- Claim C6: compile fails with InvalidPattern on every pattern text whose
multi-level wildcard segment occurs anywhere other than the final position,
and a successfully compiled pattern never carries a non-final multi-level
matcher. -/
theorem compile_multi_final (pat : String) :
    ((splitSegs pat).dropLast.any (fun s => s = "**") = true →
      compile pat = .error .invalidPattern) ∧
    (∀ ms, compile pat = .ok ms →
      ms.dropLast.all (fun m => m ≠ .anyMany) = true) := by
  constructor
  · intro hany
    unfold compile
    have hbad : multiOnlyFinal ((splitSegs pat).map matcherOfSeg) = false := by
      rw [multiOnlyFinal_eq_dropLast]
      refine Bool.eq_false_iff.mpr (fun hall => ?_)
      obtain ⟨s, hmem, hs⟩ := List.any_eq_true.mp hany
      have hs2 : s = "**" := by simpa using hs
      have hmm : Matcher.anyMany ∈ ((splitSegs pat).map matcherOfSeg).dropLast := by
        rw [← List.map_dropLast]
        exact List.mem_map.mpr ⟨s, hmem, (matcherOfSeg_anyMany s).mpr hs2⟩
      have hfalse := List.all_eq_true.mp hall _ hmm
      simp at hfalse
    rw [hbad]
    simp
  · intro ms hok
    unfold compile at hok
    by_cases hmf : multiOnlyFinal ((splitSegs pat).map matcherOfSeg)
    · rw [if_pos hmf] at hok
      injection hok with h2
      subst h2
      rw [← multiOnlyFinal_eq_dropLast]
      exact hmf
    · rw [if_neg hmf] at hok
      exact Except.noConfusion hok

/-- Witness for C6 at a pattern with a non-final multi-level wildcard. -/
theorem compile_multi_final_witness :
    compile "a.**.b" = .error .invalidPattern :=
  (compile_multi_final _).1 (by decide)

/-- Claim C7: with no multi-level matcher in the pattern, matching holds
exactly when segment counts are equal and every matcher accepts its own
segment — a literal by exact text equality, a single-level wildcard by any
non-empty segment; in particular the single-level freedesktop pattern
matches the three-segment name and rejects the four-segment one. -/
theorem matches_spec (p : List Matcher) (segs : List String) :
    (p.all (fun m => m ≠ .anyMany) = true →
      (matchSegs p segs = true ↔
        segs.length = p.length ∧
        ∀ i, ∀ hp : i < p.length, ∀ hs : i < segs.length,
          matcherOk (p.get ⟨i, hp⟩) (segs.get ⟨i, hs⟩) = true)) ∧
    (compile "org.freedesktop.*" =
      .ok [.lit "org", .lit "freedesktop", .anyOne] ∧
    patMatches [.lit "org", .lit "freedesktop", .anyOne]
      "org.freedesktop.DBus" = true ∧
    patMatches [.lit "org", .lit "freedesktop", .anyOne]
      "org.freedesktop.Management.Inhibit" = false) := by
  refine ⟨?_, rfl, rfl, rfl⟩
  induction p generalizing segs with
  | nil =>
    intro _
    cases segs with
    | nil =>
      constructor
      · intro _
        exact ⟨rfl, fun i hp hs => absurd hp (Nat.not_lt_zero i)⟩
      · intro _
        rfl
    | cons x xs =>
      constructor
      · intro h
        exact Bool.noConfusion h
      · rintro ⟨hl, _⟩
        exact absurd hl (by simp)
  | cons m p2 ih =>
    intro hnm
    simp only [List.all_cons, Bool.and_eq_true] at hnm
    obtain ⟨hm1, hm2⟩ := hnm
    cases segs with
    | nil =>
      cases m with
      | anyMany => exact absurd hm1 (by simp)
      | lit s =>
        constructor
        · intro h; exact Bool.noConfusion h
        · rintro ⟨hl, _⟩; exact absurd hl (by simp)
      | anyOne =>
        constructor
        · intro h; exact Bool.noConfusion h
        · rintro ⟨hl, _⟩; exact absurd hl (by simp)
    | cons x xs =>
      cases m with
      | anyMany => exact absurd hm1 (by simp)
      | lit s =>
        simp only [matchSegs, Bool.and_eq_true]
        constructor
        · rintro ⟨h1, h2⟩
          obtain ⟨hlen, hget⟩ := ((ih xs) hm2).mp h2
          refine ⟨by simp [hlen], fun i hp hs => ?_⟩
          cases i with
          | zero => simpa [matcherOk] using h1
          | succ j =>
            have hp2 : j < p2.length := Nat.lt_of_succ_lt_succ hp
            have hs2 : j < xs.length := Nat.lt_of_succ_lt_succ hs
            simpa using hget j hp2 hs2
        · rintro ⟨hlen, hget⟩
          refine ⟨?_, ?_⟩
          · have h0 := hget 0 (by simp) (by simp)
            simpa [matcherOk] using h0
          · refine ((ih xs) hm2).mpr ⟨by simpa using hlen, fun j hp hs => ?_⟩
            have := hget (j + 1) (by simpa using Nat.succ_lt_succ hp)
              (by simpa using Nat.succ_lt_succ hs)
            simpa using this
      | anyOne =>
        simp only [matchSegs, Bool.and_eq_true]
        constructor
        · rintro ⟨h1, h2⟩
          obtain ⟨hlen, hget⟩ := ((ih xs) hm2).mp h2
          refine ⟨by simp [hlen], fun i hp hs => ?_⟩
          cases i with
          | zero => simpa [matcherOk] using h1
          | succ j =>
            have hp2 : j < p2.length := Nat.lt_of_succ_lt_succ hp
            have hs2 : j < xs.length := Nat.lt_of_succ_lt_succ hs
            simpa using hget j hp2 hs2
        · rintro ⟨hlen, hget⟩
          refine ⟨?_, ?_⟩
          · have h0 := hget 0 (by simp) (by simp)
            simpa [matcherOk] using h0
          · refine ((ih xs) hm2).mpr ⟨by simpa using hlen, fun j hp hs => ?_⟩
            have := hget (j + 1) (by simpa using Nat.succ_lt_succ hp)
              (by simpa using Nat.succ_lt_succ hs)
            simpa using this

/-- Witness for C7: applying the characterisation to a concrete pattern
without a multi-level matcher. -/
theorem matches_spec_witness :
    matchSegs [Matcher.lit "org", Matcher.anyOne] ["org", "x"] = true ↔
      (["org", "x"].length = [Matcher.lit "org", Matcher.anyOne].length ∧
      ∀ i, ∀ hp : i < [Matcher.lit "org", Matcher.anyOne].length,
        ∀ hs : i < ["org", "x"].length,
        matcherOk ([Matcher.lit "org", Matcher.anyOne].get ⟨i, hp⟩)
          (["org", "x"].get ⟨i, hs⟩) = true) :=
  (matches_spec [Matcher.lit "org", Matcher.anyOne] ["org", "x"]).1 (by decide)

/-- Modelled from the spec: a method of an introspected interface, with
named, ordered input and output argument signatures (section 3). -/
structure DbusMethod where
  in_args : List (Option String × DbusType)
  out_args : List (Option String × DbusType)

/-- Modelled from the spec: a signal of an introspected interface
(section 3). -/
structure DbusSignal where
  args : List (Option String × DbusType)

/-- Modelled from the spec: property access modes (section 3). -/
inductive AccessMode where
  | readOnly
  | writeOnly
  | readWrite
  deriving DecidableEq

/-- Modelled from the spec: a property of an introspected interface
(section 3). -/
structure DbusProperty where
  sigOf : DbusType
  access : AccessMode

/-- Modelled from the spec: one interface of an introspection description,
its members as ordered name-keyed mappings (section 3). -/
structure Interface where
  methods : List (String × DbusMethod)
  signals : List (String × DbusSignal)
  properties : List (String × DbusProperty)

/-- Modelled from the spec: the introspection description of one object
path (section 3). -/
structure IntrospectionDescription where
  children : List String
  interfaces : List (String × Interface)

/-- Exact lookup in an ordered name-keyed mapping. -/
def lookupName {α : Type} : List (String × α) → String → Option α
  | [], _ => none
  | e :: es, n => if e.1 = n then some e.2 else lookupName es n

/-- Resolution failure (section 7). -/
inductive ResolveError where
  | notFound
  deriving DecidableEq

/-- Modelled from the spec: resolve the input signatures of a method — an
exact interface name lookup, NotFound when absent with no interface
attempted implicitly, then a method lookup, returning the declared
in-argument signatures in order (section 4.3). -/
def resolve_method_signature (d : IntrospectionDescription) (iface meth : String) :
    Except ResolveError (List DbusType) :=
  match lookupName d.interfaces iface with
  | none => .error .notFound
  | some i =>
    match lookupName i.methods meth with
    | none => .error .notFound
    | some m => .ok (m.in_args.map (fun a => a.2))

theorem lookupName_none {α : Type} (xs : List (String × α)) (n : String)
    (h : xs.all (fun e => e.1 ≠ n) = true) : lookupName xs n = none := by
  induction xs with
  | nil => rfl
  | cons e es ih =>
    simp only [List.all_cons, Bool.and_eq_true] at h
    simp only [lookupName]
    rw [if_neg (by simpa using h.1)]
    exact ih h.2

/-- Claim C8: resolving a method on an interface name absent from the
introspection description fails with NotFound — never a silent empty
signature sequence. -/
theorem resolve_absent_notFound (d : IntrospectionDescription) (iface meth : String)
    (h : d.interfaces.all (fun e => e.1 ≠ iface) = true) :
    resolve_method_signature d iface meth = .error .notFound := by
  unfold resolve_method_signature
  rw [lookupName_none d.interfaces iface h]

/-- Witness for C8 at a description exposing only one interface. -/
theorem resolve_absent_notFound_witness :
    resolve_method_signature
      ⟨["node0"],
        [("org.example.A", ⟨[("Ping", ⟨[], []⟩)], [], []⟩)]⟩
      "org.example.B" "Ping" = .error .notFound :=
  resolve_absent_notFound _ "org.example.B" "Ping" (by decide)

/-- Modelled from the spec: the list operation of the bus client — request
the bus's name listing and, when a pattern was supplied, filter it through
the pattern matcher, otherwise return it untouched in the order received
(section 4.4).  The listing argument stands for the reply of the bus's
ListNames call. -/
def listNames (listing : List String) : Option (List Matcher) → List String
  | none => listing
  | some p => listing.filter (fun n => matchSegs p (splitSegs n))

/-- Claim C9: without a pattern the list operation returns the full listing
unchanged; with a pattern it returns a sublist of the listing — the
received order, never re-sorted — containing exactly the names the pattern
matches. -/
theorem list_filter_spec (listing : List String) (p : List Matcher) :
    listNames listing none = listing ∧
    List.Sublist (listNames listing (some p)) listing ∧
    (∀ n, n ∈ listNames listing (some p) ↔
      n ∈ listing ∧ matchSegs p (splitSegs n) = true) := by
  refine ⟨rfl, List.filter_sublist _, fun n => ?_⟩
  simp [listNames, List.mem_filter]

/-- The reply presentation of the call command, from src/main.rs: a list is
returned only when there are multiple return values, unless no-flatten
forces a list. -/
def callResult (values : List Value) (noFlatten : Bool) : Value :=
  let flatten := !noFlatten
  match values with
  | [] => if flatten then .nothing else .list []
  | [v] => if flatten then v else .list [v]
  | vs => .list vs

/-- Claim C10: without the no-flatten flag the call command returns Nothing
for a reply with zero out-arguments, the single decoded value itself for
exactly one, and a list for more than one; with no-flatten it always
returns the list of decoded values. -/
theorem call_flatten_spec (vs : List Value) :
    callResult [] false = .nothing ∧
    (∀ v, callResult [v] false = v) ∧
    (2 ≤ vs.length → callResult vs false = .list vs) ∧
    callResult vs true = .list vs := by
  refine ⟨rfl, fun v => rfl, ?_, ?_⟩
  · intro h
    match vs, h with
    | v1 :: v2 :: t, _ => rfl
  · cases vs with
    | nil => rfl
    | cons v t =>
      cases t with
      | nil => rfl
      | cons v2 t2 => rfl

/-- Witness for C10 at a two-value reply. -/
theorem call_flatten_spec_witness :
    callResult [Value.int 1, Value.int 2] false = .list [Value.int 1, Value.int 2] ∧
    callResult [Value.int 1, Value.int 2] true = .list [Value.int 1, Value.int 2] :=
  ⟨(call_flatten_spec [Value.int 1, Value.int 2]).2.2.1 (by decide),
    (call_flatten_spec [Value.int 1, Value.int 2]).2.2.2⟩
